import Mathlib

/-!
Verification of the wormhol object-storage library (package `object` and its
`random` string-generator dependency) against its specification.

Go strings are modelled as lists of byte values (`List Nat`, each element a
byte `< 256`); the S3 and Cloudflare SDK boundaries are modelled as explicit
oracles (streams of probe outcomes, lists of listing pages, a per-object
delete-success oracle).
-/

set_option autoImplicit false

namespace Wormhol

/-- Bytes of an ASCII Lean string (used only for spelling out literals). -/
def strBytes (s : String) : List Nat := s.data.map (fun ch => ch.toNat)

/-! ### Go `net/url` escaping, as used by `objectValidate` and `Retrieve`

`url.QueryEscape` leaves alphanumerics and `-_.~` alone, turns a space into
`+`, and percent-encodes every other byte with uppercase hex digits. -/

/-- Characters `url.QueryEscape` leaves unescaped (RFC 3986 unreserved):
alphanumerics and `-`, `_`, `.`, `~`. -/
def isUnreserved (c : Nat) : Bool :=
  (97 ≤ c && c ≤ 122) || (65 ≤ c && c ≤ 90) || (48 ≤ c && c ≤ 57) ||
  (c == 45 || c == 95 || c == 46 || c == 126)

/-- Uppercase hex digit table "0123456789ABCDEF" of Go's `url` escaping. -/
def hexDigitUpper (d : Nat) : Nat :=
  if d < 10 then 48 + d else 55 + d

/-- One byte of Go `url.QueryEscape`: unreserved bytes pass through, space
becomes `+` (byte 43), everything else becomes `%XX`. -/
def queryEscapeByte (c : Nat) : List Nat :=
  if isUnreserved c then [c]
  else if c = 32 then [43]
  else [37, hexDigitUpper (c / 16), hexDigitUpper (c % 16)]

/-- Go `url.QueryEscape` over the bytes of a string. -/
def queryEscape : List Nat → List Nat
  | [] => []
  | c :: rest => queryEscapeByte c ++ queryEscape rest

/-- One byte of Go `strings.ReplaceAll(s, "+", "%20")`: byte 43 (`+`)
becomes the three bytes of `%20`, everything else passes through. -/
def replacePlusByte (c : Nat) : List Nat :=
  if c = 43 then [37, 50, 48] else [c]

/-- Go `strings.ReplaceAll(s, "+", "%20")` (single-byte pattern, so it is a
per-byte substitution). -/
def replaceAllPlus : List Nat → List Nat
  | [] => []
  | c :: rest => replacePlusByte c ++ replaceAllPlus rest

/-- The name escaping performed by `objectValidate`:
`*name = url.QueryEscape(*name)` followed by
`*name = strings.ReplaceAll(*name, "+", "%20")`. -/
def escapeName (name : List Nat) : List Nat :=
  replaceAllPlus (queryEscape name)

/-- The combined effect of the two escaping passes on one input byte. -/
def escChunk (c : Nat) : List Nat :=
  replaceAllPlus (queryEscapeByte c)

/-- Value of an ASCII hex digit, as accepted by Go's `url` unescaping
(`0-9`, `a-f`, `A-F`); `none` for a non-hex byte. -/
def hexVal (c : Nat) : Option Nat :=
  if 48 ≤ c ∧ c ≤ 57 then some (c - 48)
  else if 97 ≤ c ∧ c ≤ 102 then some (c - 87)
  else if 65 ≤ c ∧ c ≤ 70 then some (c - 55)
  else none

/-- Go `url.QueryUnescape`: decodes `%XX` sequences (failing on malformed
ones) and turns `+` back into a space. -/
def queryUnescape : List Nat → Option (List Nat)
  | [] => some []
  | c :: rest =>
    if c = 37 then
      match rest with
      | h1 :: h2 :: rest2 =>
        match hexVal h1, hexVal h2 with
        | some d1, some d2 =>
          match queryUnescape rest2 with
          | some t => some ((16 * d1 + d2) :: t)
          | none => none
        | _, _ => none
      | _ => none
    else if c = 43 then
      match queryUnescape rest with
      | some t => some (32 :: t)
      | none => none
    else
      match queryUnescape rest with
      | some t => some (c :: t)
      | none => none

/-- Go `strings.Split(s, sep)` for a one-byte separator: the list of
maximal separator-free segments (always non-empty). -/
def splitOnByte (sep : Nat) : List Nat → List (List Nat)
  | [] => [[]]
  | c :: rest =>
    match splitOnByte sep rest with
    | [] => [[]]
    | h :: t => if c = sep then [] :: h :: t else (c :: h) :: t

/-! ### `objectValidate` and its configuration -/

/-- The configuration values `objectValidate` reads (package-level vars
loaded from the environment in `object.go`). -/
structure Config where
  keyBase : List Nat
  keyLength : Nat
  nameLengthMin : Nat
  nameLengthMax : Nat
  sizeMin : Int
  sizeMax : Int
deriving DecidableEq, Repr

/-- The default configuration values from `object.go`. -/
def defaultConfig : Config where
  keyBase := strBytes ("123456789ABCDEFGHJKLMNPQRSTUVWXYZabcdefghijkmnopqrstuvwxyz")
  keyLength := 4
  nameLengthMin := 1
  nameLengthMax := 255
  sizeMin := 0
  sizeMax := 5000000000

/-- The validation error values of `object.go` (`errObjectKeyInvalid`,
`errObjectNameInvalid`, `errObjectSizeInvalid`). -/
inductive ValidationError where
  | keyInvalid
  | nameInvalid
  | sizeInvalid
deriving DecidableEq, Repr

/-- The key block of `objectValidate`: length must lie in
`[keyLength, keyLength*2]` and every character must occur in the configured
alphabet; `none` means the block raises no error. -/
def validateKeyCheck (cfg : Config) : Option (List Nat) → Option ValidationError
  | none => none
  | some k =>
    if k.length < cfg.keyLength || cfg.keyLength * 2 < k.length then
      some .keyInvalid
    else if k.any (fun c => !(cfg.keyBase.contains c)) then
      some .keyInvalid
    else none

/-- The name block of `objectValidate`: escape the name in place, then
check the escaped length against the configured bounds.  Returns the
escaped name (the Go code mutates `*name`). -/
def validateNameCheck (cfg : Config) : Option (List Nat) →
    Except ValidationError (Option (List Nat))
  | none => .ok none
  | some n =>
    let escaped := escapeName n
    if escaped.length < cfg.nameLengthMin || cfg.nameLengthMax < escaped.length then
      .error .nameInvalid
    else .ok (some escaped)

/-- The size block of `objectValidate`: the size must lie in
`[sizeMin, sizeMax]`. -/
def validateSizeCheck (cfg : Config) : Option Int → Option ValidationError
  | none => none
  | some s => if s < cfg.sizeMin || cfg.sizeMax < s then some .sizeInvalid else none

/-- `objectValidate(key, name, size)` of `object.go`: the three optional
blocks run in order, the first failure wins; on success the (escaped) name
is returned, mirroring the in-place mutation of `*name`. -/
def objectValidate (cfg : Config) (key name : Option (List Nat)) (size : Option Int) :
    Except ValidationError (Option (List Nat)) :=
  match validateKeyCheck cfg key with
  | some e => .error e
  | none =>
    match validateNameCheck cfg name with
    | .error e => .error e
    | .ok escaped =>
      match validateSizeCheck cfg size with
      | some e => .error e
      | none => .ok escaped

/-! ### The `Object` record

The eight fields of `Object` in `object.go`; struct literals in Go zero out
omitted fields, so the defaults model the zero values. -/

/-- The `Object` struct of `object.go`.  `LastModified` is modelled as an
integer timestamp (nanoseconds since the epoch); the presigned-PUT header
map of the Go struct is a key/value list. -/
structure Object where
  key : List Nat := []
  name : List Nat := []
  sizeBytes : Int := 0
  lastModified : Int := 0
  expirationSeconds : Int := 0
  presignedGetUrl : List Nat := []
  presignedPutUrl : List Nat := []
  presignedPutHeaders : List (List Nat × List Nat) := []
deriving DecidableEq, Repr

/-! ### `Retrieve`'s name recovery

`Retrieve` computes
`url.QueryUnescape(strings.Split(*object.ContentDisposition, "\x22")[1])`.
The dereference of a `nil` header pointer and the unchecked index `[1]` are
both runtime panics in Go; the model signals them as `none` (no Go error
value is ever returned on those paths). -/

/-- The content-disposition header value `Store` writes:
`attachment; filename="<escaped name>"`. -/
def contentDisposition (escapedName : List Nat) : List Nat :=
  strBytes ("attachment; filename=") ++ [34] ++ escapedName ++ [34]

/-- The name-recovery step of `Retrieve` applied to the (optional) stored
content-disposition header.  `none` models the two Go panics (nil header
dereference; index `[1]` out of bounds when the header holds no `"`). -/
def retrieveNameFromHeader : Option (List Nat) → Option (List Nat)
  | none => none
  | some cd =>
    match (splitOnByte 34 cd)[1]? with
    | some segment => queryUnescape segment
    | none => none

/-! ### `objectGenerateUniqueKey`

The S3 `HeadObject` probe is modelled as a stream of outcomes; a successful
probe is a `nil` Go error, on which the source performs the type assertion
`err.(awserr.Error)` — a runtime panic.  The wall clock is a stream of
elapsed durations (`time.Since(t_start)` at the i-th loop check). -/

/-- Outcome of one `HeadObject` probe: success (object exists, `nil`
error), error with code `NotFound`, or any other error. -/
inductive HeadOutcome where
  | success
  | errNotFound
  | errOther
deriving DecidableEq, Repr

/-- Result of `objectGenerateUniqueKey`: a key, the
`errObjectKeyGenerationTookMaxDelay` error, the runtime panic from the
type assertion on a `nil` error, or divergence (fuel exhausted). -/
inductive GenKeyResult where
  | ok (key : List Nat)
  | timeout
  | panicked
  | diverged
deriving DecidableEq, Repr

/-- `objectGenerateUniqueKey` of `object.go`.  `keys i` is the i-th
generated candidate, `probe i` the i-th `HeadObject` outcome, `elapsed i`
the value of `time.Since(t_start)` at the loop check following probe `i`,
and `maxDelay` the configured max delay.  Attempt `i`: a `NotFound` probe
returns the candidate; a successful probe (object exists) hits the
type assertion `err.(awserr.Error)` with `err == nil` and panics; any
other error re-checks the clock and retries. -/
def objectGenerateUniqueKey (keys : Nat → List Nat) (probe : Nat → HeadOutcome)
    (elapsed : Nat → Nat) (maxDelay : Nat) : Nat → Nat → GenKeyResult
  | 0, _ => .diverged
  | fuel + 1, i =>
    match probe i with
    | .errNotFound => .ok (keys i)
    | .success => .panicked
    | .errOther =>
      if elapsed i > maxDelay then .timeout
      else objectGenerateUniqueKey keys probe elapsed maxDelay fuel (i + 1)

/-! ### `List` pagination

A `ListObjectsV2` response is a page (contents plus the truncation flag);
the model records every request issued (max-keys and the `StartAfter`
cursor) so the cursor discipline is visible in theorems.  Running out of
modelled pages while the loop still wants one, and the Go panic
`objects[len(objects)-1]` on an empty accumulator, are both `none`. -/

/-- One `ListObjectsV2` response: the page contents (key and
last-modified per object) and the `IsTruncated` flag. -/
structure Page where
  contents : List (List Nat × Int)
  isTruncated : Bool
deriving DecidableEq, Repr

/-- One `ListObjectsV2` request as issued by `List`. -/
structure ListRequest where
  maxKeys : Int
  startAfter : Option (List Nat)
deriving DecidableEq, Repr

/-- The objects `List` builds from one page: key and last-modified only,
all other fields left at their zero values. -/
def pageObjs (p : Page) : List Object :=
  p.contents.map (fun c => { key := c.1, lastModified := c.2 })

/-- The objects of a sequence of pages, concatenated in order. -/
def pagesObjs : List Page → List Object
  | [] => []
  | p :: rest => pageObjs p ++ pagesObjs rest

/-- The loop of `List`: consume one page, and while the page is truncated
issue the next request with `StartAfter` set to the key of the last
accumulated object.  Returns the accumulated objects and the follow-up
requests issued. -/
def listAux (maxKeys : Int) : List Page → List Object →
    Option (List Object × List ListRequest)
  | [], _ => none
  | p :: rest, acc =>
    let acc2 := acc ++ pageObjs p
    if p.isTruncated then
      match acc2.getLast? with
      | none => none
      | some lastObj =>
        match listAux maxKeys rest acc2 with
        | none => none
        | some (objs, reqs) => some (objs, ⟨maxKeys, some lastObj.key⟩ :: reqs)
    else some (acc2, [])

/-- `List` of `object.go`, run against a sequence of page responses: the
initial request has no `StartAfter`; the loop then stitches pages as in
`listAux`. -/
def listGo (maxKeys : Int) (pages : List Page) :
    Option (List Object × List ListRequest) :=
  match listAux maxKeys pages [] with
  | none => none
  | some (objs, reqs) => some (objs, ⟨maxKeys, none⟩ :: reqs)

/-- The key of the last object of a list (`objects[len(objects)-1].Key`),
with a default for the empty list. -/
def lastKeyD (l : List Object) : List Nat :=
  match l.getLast? with
  | some o => o.key
  | none => []

/-! ### `Reap` -/

/-- Result of `Reap` over a fixed listing: the returned count, the objects
successfully deleted (in order), and the object whose `Delete` failed, if
any. -/
structure ReapOut where
  count : Nat
  deleted : List Object
  failed : Option Object
deriving DecidableEq, Repr

/-- The loop of `Reap`: for each listed object whose
`last_modified + ttl < now`, call `Delete` (success given by the oracle
`delOk`); count successes; stop on the first failure. -/
def reapAux (ttl now : Int) (delOk : Object → Bool) :
    List Object → Nat → List Object → ReapOut
  | [], n, ds => ⟨n, ds.reverse, none⟩
  | o :: rest, n, ds =>
    if o.lastModified + ttl < now then
      if delOk o then reapAux ttl now delOk rest (n + 1) (o :: ds)
      else ⟨n, ds.reverse, some o⟩
    else reapAux ttl now delOk rest n ds

/-- `Reap` of `object.go`, run over the listing returned by `List`. -/
def reapGo (ttl now : Int) (delOk : Object → Bool) (objs : List Object) : ReapOut :=
  reapAux ttl now delOk objs 0 []

/-! ### `purgeCache`

The three Cloudflare constructors are modelled as always succeeding (they
are pure client builders); the package-level `cloudflareClient` variable is
the `clientVar` argument, `none` for the `nil` it holds unless a credential
branch assigned it. -/

/-- A constructed Cloudflare client, tagged by the credential shape used. -/
inductive CfClient where
  | fromKeyEmail (key email : List Nat)
  | fromToken (token : List Nat)
  | fromUserServiceKey (key : List Nat)
deriving DecidableEq, Repr

/-- Observable outcome of `purgeCache`: skipped (no zone configured), or a
purge call issued on the given client value (`none` = the call runs on a
`nil` client). -/
inductive PurgeOutcome where
  | noop
  | purge (client : Option CfClient)
deriving DecidableEq, Repr

/-- `purgeCache` of `object.go`: no-op when no zone is configured;
otherwise each of the three credential branches overwrites the client
variable in turn, and the purge call is issued on whatever the variable
then holds — the branches are the only assignments to it. -/
def purgeCache (zone email key token usk : List Nat)
    (clientVar : Option CfClient) : PurgeOutcome :=
  if zone = [] then .noop
  else
    let c1 := if email ≠ [] ∧ key ≠ [] then some (CfClient.fromKeyEmail key email) else clientVar
    let c2 := if token ≠ [] then some (CfClient.fromToken token) else c1
    let c3 := if usk ≠ [] then some (CfClient.fromUserServiceKey usk) else c2
    .purge c3

/-! ### The random string generator (`random.go`) -/

/-- The bit-width loop of `NewStringGenerator`: starting at exponent 1,
increment while `2^y < n`.  The Go loop runs on exact small powers of two;
the fuel argument only bounds the iteration count and is chosen large
enough never to bind. -/
def bitsLoop : Nat → Nat → Nat → Nat
  | 0, _, y => y
  | fuel + 1, n, y => if 2 ^ y < n then bitsLoop fuel n (y + 1) else y

/-- `indexBits` computed by `NewStringGenerator` for a base of `n`
symbols: the minimal `b ≥ 1` with `2^b ≥ n`. -/
def computeBits (n : Nat) : Nat := bitsLoop n n 1

/-- The sequence of candidate indices `Generate` extracts: candidate `j`
is bits `[b*(j % m), b*(j % m) + b)` of 63-bit draw number `j / m`, where
`m = indexMax = 63 / b`. -/
def candOf (stream : Nat → Nat) (b m : Nat) (j : Nat) : Nat :=
  (stream (j / m) / 2 ^ (b * (j % m))) % 2 ^ b

/-- The loop of `Generate`: examine candidate indices from position `j`
on, appending `base[index]` whenever `index < len(base)` (rejection
sampling), until `need` characters have been emitted; `none` when the fuel
(number of candidates examined) runs out first. -/
def generateAux (base : List Nat) (cand : Nat → Nat) : Nat → Nat → Nat → Option (List Nat)
  | _, _, 0 => some []
  | 0, _, _ + 1 => none
  | fuel + 1, j, need + 1 =>
    if h : cand j < base.length then
      match generateAux base cand fuel (j + 1) need with
      | some s => some (base.get ⟨cand j, h⟩ :: s)
      | none => none
    else generateAux base cand fuel (j + 1) (need + 1)

/-- `Generate(length)` of `random.go`, with the `rand.Source` modelled as
the stream of its 63-bit draws and an explicit bound on the number of
candidate extractions. -/
def generate (base : List Nat) (stream : Nat → Nat) (length fuel : Nat) :
    Option (List Nat) :=
  let b := computeBits base.length
  let m := 63 / b
  generateAux base (candOf stream b m) fuel 0 length

/-- Number of accepted candidates (`cand i < n`) among positions
`[j, j + fuel)`. -/
def countAccepted (cand : Nat → Nat) (n : Nat) : Nat → Nat → Nat
  | 0, _ => 0
  | fuel + 1, j => (if cand j < n then 1 else 0) + countAccepted cand n fuel (j + 1)

/-! ## Lemmas about the escaping pipeline -/

theorem replaceAllPlus_append (l₁ l₂ : List Nat) :
    replaceAllPlus (l₁ ++ l₂) = replaceAllPlus l₁ ++ replaceAllPlus l₂ := by
  induction l₁ with
  | nil => rfl
  | cons c rest ih => simp [replaceAllPlus, ih, List.append_assoc]

theorem escapeName_nil : escapeName [] = [] := rfl

theorem escapeName_cons (c : Nat) (s : List Nat) :
    escapeName (c :: s) = escChunk c ++ escapeName s := by
  simp [escapeName, queryEscape, escChunk, replaceAllPlus_append]

theorem not_mem_replacePlusByte_43 (c : Nat) : 43 ∉ replacePlusByte c := by
  by_cases h : c = 43
  · simp [replacePlusByte, h]
  · simp [replacePlusByte, h]; omega

theorem not_mem_replaceAllPlus_43 (l : List Nat) : 43 ∉ replaceAllPlus l := by
  induction l with
  | nil => simp [replaceAllPlus]
  | cons c rest ih =>
    simp only [replaceAllPlus, List.mem_append]
    rintro (h | h)
    · exact not_mem_replacePlusByte_43 c h
    · exact ih h

theorem not_mem_escapeName_43 (name : List Nat) : 43 ∉ escapeName name :=
  not_mem_replaceAllPlus_43 _

theorem escChunk_infix_of_mem {c : Nat} {name : List Nat} (h : c ∈ name) :
    ∃ t u, escapeName name = t ++ escChunk c ++ u := by
  induction name with
  | nil => cases h
  | cons x rest ih =>
    rcases List.mem_cons.mp h with h | h
    · subst h
      exact ⟨[], escapeName rest, by simp [escapeName_cons]⟩
    · obtain ⟨t, u, ht⟩ := ih h
      exact ⟨escChunk x ++ t, u, by simp [escapeName_cons, ht, List.append_assoc]⟩

/-- Claim C2 (corrected): the escaping performed during name validation
encodes a literal `+` as `%2B` (not `%20`): it is the literal space that
`url.QueryEscape` turns into `+` and the subsequent `ReplaceAll` rewrites
to `%20`; consequently the escaped name, the canonical stored
representation, contains no `+` byte at all. -/
theorem escapePlus_amended (name : List Nat) :
    43 ∉ escapeName name ∧
    (43 ∈ name → ∃ t u, escapeName name = t ++ [37, 50, 66] ++ u) ∧
    (32 ∈ name → ∃ t u, escapeName name = t ++ [37, 50, 48] ++ u) := by
  refine ⟨not_mem_escapeName_43 name, ?_, ?_⟩
  · intro h
    obtain ⟨t, u, ht⟩ := escChunk_infix_of_mem h
    exact ⟨t, u, by simpa using ht⟩
  · intro h
    obtain ⟨t, u, ht⟩ := escChunk_infix_of_mem h
    exact ⟨t, u, by simpa using ht⟩

/-- Claim C2, counterexample to the claim as stated: validating the
one-character name `+` stores the escaped form `%2B`, not `%20`. -/
theorem escapePlus_counterexample :
    objectValidate defaultConfig none (some [43]) none =
      .ok (some [37, 50, 66]) ∧ ([37, 50, 66] : List Nat) ≠ [37, 50, 48] :=
  ⟨rfl, by decide⟩

/-- Claim C2, witness: the amended statement at the concrete name `+ `
(a literal plus followed by a literal space). -/
theorem escapePlus_amended_witness :
    43 ∉ escapeName [43, 32] ∧
    (∃ t u, escapeName [43, 32] = t ++ [37, 50, 66] ++ u) ∧
    (∃ t u, escapeName [43, 32] = t ++ [37, 50, 48] ++ u) :=
  ⟨(escapePlus_amended [43, 32]).1,
   (escapePlus_amended [43, 32]).2.1 (by decide),
   (escapePlus_amended [43, 32]).2.2 (by decide)⟩

/-! ## Round-trip of escaping and unescaping (Claim C3) -/

theorem unreserved_facts {c : Nat} (h : isUnreserved c = true) :
    c ≠ 37 ∧ c ≠ 43 ∧ c ≠ 34 ∧ c ≠ 32 := by
  simp only [isUnreserved, Bool.or_eq_true, Bool.and_eq_true, decide_eq_true_eq,
    beq_iff_eq] at h
  omega

theorem hexDigitUpper_ge (d : Nat) : 48 ≤ hexDigitUpper d := by
  unfold hexDigitUpper
  split <;> omega

theorem hexVal_hexDigitUpper {d : Nat} (h : d < 16) :
    hexVal (hexDigitUpper d) = some d := by
  unfold hexVal hexDigitUpper
  by_cases h10 : d < 10
  · simp only [if_pos h10]
    rw [if_pos (by omega)]
    congr 1
    omega
  · simp only [if_neg h10]
    rw [if_neg (by omega), if_neg (by omega), if_pos (by omega)]
    congr 1
    omega

theorem replacePlusByte_ne {c : Nat} (h : c ≠ 43) : replacePlusByte c = [c] := by
  simp [replacePlusByte, h]

theorem escChunk_unreserved {c : Nat} (h : isUnreserved c = true) :
    escChunk c = [c] := by
  have hne := (unreserved_facts h).2.1
  simp [escChunk, queryEscapeByte, h, replaceAllPlus, replacePlusByte_ne hne]

theorem escChunk_space : escChunk 32 = [37, 50, 48] := rfl

theorem escChunk_other {c : Nat} (hu : isUnreserved c = false) (h32 : c ≠ 32) :
    escChunk c = [37, hexDigitUpper (c / 16), hexDigitUpper (c % 16)] := by
  have g1 : (37 : Nat) ≠ 43 := by omega
  have g2 : hexDigitUpper (c / 16) ≠ 43 := by have := hexDigitUpper_ge (c / 16); omega
  have g3 : hexDigitUpper (c % 16) ≠ 43 := by have := hexDigitUpper_ge (c % 16); omega
  simp [escChunk, queryEscapeByte, hu, h32, replaceAllPlus,
    replacePlusByte_ne g1, replacePlusByte_ne g2, replacePlusByte_ne g3]

theorem queryUnescape_cons_plain {c : Nat} (h37 : c ≠ 37) (h43 : c ≠ 43)
    (rest : List Nat) :
    queryUnescape (c :: rest) =
      match queryUnescape rest with
      | some t => some (c :: t)
      | none => none := by
  match rest with
  | h1 :: h2 :: rest2 => rw [queryUnescape.eq_2, if_neg h37, if_neg h43]
  | [] => rw [queryUnescape.eq_3 _ _ (by simp), if_neg h37, if_neg h43]
  | [h1] => rw [queryUnescape.eq_3 _ _ (by simp), if_neg h37, if_neg h43]

theorem queryUnescape_percent {h1 h2 d1 d2 : Nat} (e1 : hexVal h1 = some d1)
    (e2 : hexVal h2 = some d2) (rest : List Nat) :
    queryUnescape (37 :: h1 :: h2 :: rest) =
      match queryUnescape rest with
      | some t => some ((16 * d1 + d2) :: t)
      | none => none := by
  rw [queryUnescape.eq_2, if_pos rfl]
  simp [e1, e2]

theorem queryUnescape_escChunk {c : Nat} (hc : c < 256) (rest : List Nat) :
    queryUnescape (escChunk c ++ rest) =
      match queryUnescape rest with
      | some t => some (c :: t)
      | none => none := by
  by_cases hu : isUnreserved c
  · obtain ⟨g37, g43, -, -⟩ := unreserved_facts hu
    rw [escChunk_unreserved hu]
    exact queryUnescape_cons_plain g37 g43 rest
  · by_cases h32 : c = 32
    · subst h32
      rw [escChunk_space]
      have e1 : hexVal 50 = some 2 := by decide
      have e2 : hexVal 48 = some 0 := by decide
      simpa using queryUnescape_percent e1 e2 rest
    · rw [escChunk_other (by simpa using hu) h32]
      have e1 : hexVal (hexDigitUpper (c / 16)) = some (c / 16) :=
        hexVal_hexDigitUpper (by omega)
      have e2 : hexVal (hexDigitUpper (c % 16)) = some (c % 16) :=
        hexVal_hexDigitUpper (by omega)
      have hp := queryUnescape_percent e1 e2 rest
      have hcc : 16 * (c / 16) + c % 16 = c := by omega
      rw [hcc] at hp
      simpa using hp

theorem queryUnescape_escapeName {s : List Nat} (h : ∀ c ∈ s, c < 256) :
    queryUnescape (escapeName s) = some s := by
  induction s with
  | nil => rfl
  | cons c rest ih =>
    rw [escapeName_cons, queryUnescape_escChunk (h c (by simp)),
      ih (fun x hx => h x (by simp [hx]))]

theorem not_mem_escChunk_34 (c : Nat) : 34 ∉ escChunk c := by
  by_cases hu : isUnreserved c
  · rw [escChunk_unreserved hu]
    have := (unreserved_facts hu).2.2.1
    simp
    omega
  · by_cases h32 : c = 32
    · subst h32; decide
    · rw [escChunk_other (Bool.not_eq_true _ ▸ hu) h32]
      have g2 := hexDigitUpper_ge (c / 16)
      have g3 := hexDigitUpper_ge (c % 16)
      simp
      omega

theorem not_mem_escapeName_34 (name : List Nat) : 34 ∉ escapeName name := by
  induction name with
  | nil => simp [escapeName_nil]
  | cons c rest ih =>
    rw [escapeName_cons]
    simp only [List.mem_append]
    rintro (h | h)
    · exact not_mem_escChunk_34 c h
    · exact ih h

/-! ## `strings.Split` on the quote byte -/

theorem splitOnByte_cons (sep c : Nat) (rest : List Nat) :
    splitOnByte sep (c :: rest) =
      match splitOnByte sep rest with
      | [] => [[]]
      | h :: t => if c = sep then [] :: h :: t else (c :: h) :: t := by
  rw [splitOnByte]

theorem splitOnByte_no_sep {sep : Nat} {l : List Nat} (h : sep ∉ l) :
    splitOnByte sep l = [l] := by
  induction l with
  | nil => rfl
  | cons c rest ih =>
    have hc : c ≠ sep := fun hh => h (hh ▸ List.mem_cons_self c rest)
    have hr : sep ∉ rest := fun hh => h (List.mem_cons_of_mem c hh)
    rw [splitOnByte_cons, ih hr]
    simp [hc]

theorem splitOnByte_append_sep {sep : Nat} {m : List Nat} (hm : sep ∉ m) :
    splitOnByte sep (m ++ [sep]) = [m, []] := by
  induction m with
  | nil =>
    rw [List.nil_append, splitOnByte_cons]
    simp [splitOnByte]
  | cons c rest ih =>
    have hc : c ≠ sep := fun hh => hm (hh ▸ List.mem_cons_self c rest)
    have hr : sep ∉ rest := fun hh => hm (List.mem_cons_of_mem c hh)
    rw [List.cons_append, splitOnByte_cons, ih hr]
    simp [hc]

theorem splitOnByte_quote {p m : List Nat} (hp : 34 ∉ p) (hm : 34 ∉ m) :
    splitOnByte 34 (p ++ 34 :: (m ++ [34])) = [p, m, []] := by
  induction p with
  | nil =>
    rw [List.nil_append, splitOnByte_cons, splitOnByte_append_sep hm]
    simp
  | cons c rest ih =>
    have hc : c ≠ 34 := fun hh => hp (hh ▸ List.mem_cons_self c rest)
    have hr : 34 ∉ rest := fun hh => hp (List.mem_cons_of_mem c hh)
    rw [List.cons_append, splitOnByte_cons, ih hr]
    simp [hc]

/-- Claim C3 (confirmed): for every caller-supplied name whose escaped form
passes validation, recovering the name as `Retrieve` does — split the
stored content-disposition on `"` , take field 1, `url.QueryUnescape` it —
yields exactly the original name. -/
theorem retrieve_name_roundtrip (cfg : Config) (name : List Nat)
    (hbytes : ∀ c ∈ name, c < 256)
    (_hvalid : objectValidate cfg none (some name) none = .ok (some (escapeName name))) :
    retrieveNameFromHeader (some (contentDisposition (escapeName name))) = some name := by
  have hshape : contentDisposition (escapeName name) =
      strBytes ("attachment; filename=") ++ 34 :: (escapeName name ++ [34]) := by
    simp [contentDisposition]
  rw [retrieveNameFromHeader, hshape,
    splitOnByte_quote (by decide) (not_mem_escapeName_34 name)]
  simpa using queryUnescape_escapeName hbytes

/-- Claim C3, witness: round trip at the concrete name `a+b c.pdf`. -/
theorem retrieve_name_roundtrip_witness :
    retrieveNameFromHeader
        (some (contentDisposition (escapeName (strBytes ("a+b c.pdf"))))) =
      some (strBytes ("a+b c.pdf")) :=
  retrieve_name_roundtrip defaultConfig (strBytes ("a+b c.pdf")) (by decide) rfl

/-! ## Key validation (Claim C6) -/

theorem validateKeyCheck_spec (cfg : Config) (k : List Nat) :
    (validateKeyCheck cfg (some k) = none ↔
      (cfg.keyLength ≤ k.length ∧ k.length ≤ cfg.keyLength * 2 ∧
        ∀ c ∈ k, c ∈ cfg.keyBase)) ∧
    (validateKeyCheck cfg (some k) = none ∨
      validateKeyCheck cfg (some k) = some .keyInvalid) := by
  have hred : validateKeyCheck cfg (some k) =
      (if k.length < cfg.keyLength || cfg.keyLength * 2 < k.length then
        some ValidationError.keyInvalid
      else if k.any (fun c => !(cfg.keyBase.contains c)) then
        some ValidationError.keyInvalid
      else none) := rfl
  rw [hred]
  by_cases h1 : k.length < cfg.keyLength || cfg.keyLength * 2 < k.length
  · rw [if_pos h1]
    simp only [Bool.or_eq_true, decide_eq_true_eq] at h1
    refine ⟨⟨fun h => Option.noConfusion h, ?_⟩, Or.inr rfl⟩
    rintro ⟨a, b, -⟩
    exfalso
    omega
  · rw [if_neg h1]
    simp only [Bool.or_eq_true, decide_eq_true_eq, not_or, Nat.not_lt] at h1
    by_cases h2 : k.any (fun c => !(cfg.keyBase.contains c))
    · rw [if_pos h2]
      simp only [List.any_eq_true, Bool.not_eq_true'] at h2
      obtain ⟨c, hc, hcc⟩ := h2
      refine ⟨⟨fun h => Option.noConfusion h, ?_⟩, Or.inr rfl⟩
      rintro ⟨-, -, hall⟩
      exfalso
      have hmem : cfg.keyBase.contains c = true := List.elem_iff.mpr (hall c hc)
      rw [hcc] at hmem
      cases hmem
    · rw [if_neg h2]
      simp only [List.any_eq_true, Bool.not_eq_true', not_exists, not_and] at h2
      refine ⟨⟨fun _ => ⟨h1.1, h1.2, fun c hc => ?_⟩, fun _ => rfl⟩, Or.inl rfl⟩
      have hct : cfg.keyBase.contains c = true := by
        cases hq : cfg.keyBase.contains c
        · exact absurd hq (h2 c hc)
        · rfl
      exact List.elem_iff.mp hct

/-- Claim C6 (confirmed): key validation succeeds exactly when the key's
length lies in `[keyLength, keyLength*2]` and every character of the key
occurs in the configured alphabet; otherwise it fails with the
invalid-key error.  The boundary lengths are accepted as instances of the
equivalence. -/
theorem key_validation_correct (cfg : Config) (k : List Nat) :
    (objectValidate cfg (some k) none none = .ok none ↔
      (cfg.keyLength ≤ k.length ∧ k.length ≤ cfg.keyLength * 2 ∧
        ∀ c ∈ k, c ∈ cfg.keyBase)) ∧
    (objectValidate cfg (some k) none none = .ok none ∨
      objectValidate cfg (some k) none none = .error .keyInvalid) := by
  obtain ⟨hiff, hdich⟩ := validateKeyCheck_spec cfg k
  cases hval : validateKeyCheck cfg (some k) with
  | none =>
    refine ⟨⟨fun _ => hiff.mp hval, fun _ => ?_⟩, Or.inl ?_⟩ <;>
      simp [objectValidate, hval, validateNameCheck, validateSizeCheck]
  | some e =>
    have he : e = .keyInvalid := by
      rcases hdich with h | h
      · rw [hval] at h; cases h
      · rw [hval] at h; exact (Option.some_inj.mp h)
    subst he
    refine ⟨⟨fun h => ?_, fun h => ?_⟩, Or.inr ?_⟩
    · simp [objectValidate, hval] at h
    · rw [← hiff] at h; rw [hval] at h; cases h
    · simp [objectValidate, hval]

/-- Claim C6, witness: under the default configuration (key length 4), the
boundary-length keys `1234` (length 4) and `12345678` (length 8) are
accepted, and the equivalence yields rejection data for others. -/
theorem key_validation_witness :
    objectValidate defaultConfig (some (strBytes ("1234"))) none none = .ok none ∧
    objectValidate defaultConfig (some (strBytes ("12345678"))) none none = .ok none :=
  ⟨(key_validation_correct defaultConfig (strBytes ("1234"))).1.mpr (by decide),
   (key_validation_correct defaultConfig (strBytes ("12345678"))).1.mpr (by decide)⟩

/-! ## `Retrieve`'s unchecked header access (Claim C10) -/

/-- Claim C10 (confirmed): `Retrieve` dereferences the content-disposition
header and indexes field 1 of the split on `"` unconditionally.  For an
absent header, and for any header containing no `"` byte, the split has
exactly one field, so the access `[1]` is out of bounds (the lookup is
`none`) and the model's outcome is the panic marker `none` rather than a
returned error. -/
theorem retrieve_header_out_of_bounds (cd : List Nat) (h : 34 ∉ cd) :
    retrieveNameFromHeader none = none ∧
    (splitOnByte 34 cd).length = 1 ∧
    (splitOnByte 34 cd)[1]? = none ∧
    retrieveNameFromHeader (some cd) = none := by
  have hs : splitOnByte 34 cd = [cd] := splitOnByte_no_sep h
  refine ⟨rfl, ?_, ?_, ?_⟩
  · rw [hs]
    rfl
  · rw [hs]
    rfl
  · rw [retrieveNameFromHeader, hs]
    rfl

/-- Claim C10, witness: a header value `attachment` with no quote
character makes the field access out of bounds. -/
theorem retrieve_header_out_of_bounds_witness :
    retrieveNameFromHeader none = none ∧
    (splitOnByte 34 (strBytes ("attachment"))).length = 1 ∧
    (splitOnByte 34 (strBytes ("attachment")))[1]? = none ∧
    retrieveNameFromHeader (some (strBytes ("attachment"))) = none :=
  retrieve_header_out_of_bounds (strBytes ("attachment")) (by decide)

/-! ## `purgeCache` with a zone but no credentials (Claim C9) -/

/-- Claim C9 (confirmed): when a CDN zone is configured but none of the
three Cloudflare credential shapes is set, none of the three branches
assigns the client variable, no configuration error is produced, and the
purge call is issued on the never-constructed (`nil`) client. -/
theorem purge_cache_nil_client (zone email key token usk : List Nat)
    (hz : zone ≠ []) (h1 : email = [] ∨ key = []) (h2 : token = [])
    (h3 : usk = []) :
    purgeCache zone email key token usk none = .purge none := by
  have e1 : ¬(email ≠ [] ∧ key ≠ []) := by
    rcases h1 with h | h
    · exact fun hc => hc.1 h
    · exact fun hc => hc.2 h
  simp [purgeCache, hz, e1, h2, h3]

/-- Claim C9, witness: zone `z`, every credential empty. -/
theorem purge_cache_nil_client_witness :
    purgeCache [122] [] [] [] [] none = .purge none :=
  purge_cache_nil_client [122] [] [] [] [] (by decide) (Or.inl rfl) rfl rfl

/-! ## `objectGenerateUniqueKey` on an existing object (Claim C1) -/

/-- Claim C1 (code bug): the collision loop's condition performs the type
assertion `err.(awserr.Error)` on the probe's error.  When the probe
reports the object exists, `HeadObject` succeeds and `err` is `nil`, so
the assertion panics instead of generating a new candidate and retrying —
contradicting the specified retry behaviour.  The `NotFound` path and the
timeout path behave as specified (second and third conjuncts). -/
theorem objectGenerateUniqueKey_exists_panics :
    objectGenerateUniqueKey (fun _ => strBytes ("1Ab9")) (fun _ => .success)
        (fun _ => 0) 5 1 0 = .panicked ∧
    objectGenerateUniqueKey (fun _ => strBytes ("1Ab9")) (fun _ => .errNotFound)
        (fun _ => 0) 5 1 0 = .ok (strBytes ("1Ab9")) ∧
    objectGenerateUniqueKey (fun _ => strBytes ("1Ab9")) (fun _ => .errOther)
        (fun _ => 6) 5 10 0 = .timeout :=
  ⟨rfl, rfl, rfl⟩

/-! ## Bit-width computation of `NewStringGenerator` (Claim C8) -/

theorem bitsLoop_ge (fuel : Nat) : ∀ (n y : Nat), y ≤ bitsLoop fuel n y := by
  induction fuel with
  | zero => intro n y; simp [bitsLoop]
  | succ fuel ih =>
    intro n y
    simp only [bitsLoop]
    split
    · exact le_trans (Nat.le_succ y) (ih n (y + 1))
    · exact le_refl y

theorem bitsLoop_le_bound (fuel : Nat) :
    ∀ (n y : Nat), n ≤ 2 ^ (y + fuel) → n ≤ 2 ^ bitsLoop fuel n y := by
  induction fuel with
  | zero => intro n y h; simpa [bitsLoop] using h
  | succ fuel ih =>
    intro n y h
    simp only [bitsLoop]
    split
    next =>
      exact ih n (y + 1) (by rw [show y + 1 + fuel = y + (fuel + 1) from by omega]; exact h)
    next hlt => exact Nat.not_lt.mp hlt

theorem bitsLoop_min (fuel : Nat) :
    ∀ (n y b : Nat), y ≤ b → n ≤ 2 ^ b → bitsLoop fuel n y ≤ b := by
  induction fuel with
  | zero => intro n y b hyb _; simpa [bitsLoop] using hyb
  | succ fuel ih =>
    intro n y b hyb hb
    simp only [bitsLoop]
    split
    next hlt =>
      refine ih n (y + 1) b ?_ hb
      by_contra hc
      push_neg at hc
      have hby : b ≤ y := by omega
      have : (2 : Nat) ^ b ≤ 2 ^ y := Nat.pow_le_pow_right (by omega) hby
      omega
    next => exact hyb

theorem computeBits_minimal (n : Nat) :
    1 ≤ computeBits n ∧ n ≤ 2 ^ computeBits n ∧
    ∀ b, 1 ≤ b → n ≤ 2 ^ b → computeBits n ≤ b := by
  refine ⟨bitsLoop_ge n n 1, bitsLoop_le_bound n n 1 ?_,
    fun b hb1 hb2 => bitsLoop_min n n 1 b hb1 hb2⟩
  calc n ≤ 2 ^ n := (Nat.lt_two_pow n).le
    _ ≤ 2 ^ (1 + n) := Nat.pow_le_pow_right (by omega) (by omega)

/-- Claim C8 (confirmed): the index bit width computed by
`NewStringGenerator` for base sizes 1, 2, 3, 4, 5, 58, 64, 65 is
1, 1, 2, 2, 3, 6, 6, 7 respectively, and in general it is the minimal
`b ≥ 1` with `2^b ≥ n` (the floating-point powers the Go loop compares are
exact for these magnitudes, so the integer model is faithful). -/
theorem bit_width_correct :
    computeBits 1 = 1 ∧ computeBits 2 = 1 ∧ computeBits 3 = 2 ∧
    computeBits 4 = 2 ∧ computeBits 5 = 3 ∧ computeBits 58 = 6 ∧
    computeBits 64 = 6 ∧ computeBits 65 = 7 ∧
    ∀ n, 1 ≤ computeBits n ∧ n ≤ 2 ^ computeBits n ∧
      ∀ b, 1 ≤ b → n ≤ 2 ^ b → computeBits n ≤ b :=
  ⟨(by decide), (by decide), (by decide), (by decide), (by decide),
   (by decide), (by decide), (by decide), computeBits_minimal⟩

/-- Claim C8, witness: the minimality clause at the default 58-symbol
alphabet with bound 6. -/
theorem bit_width_witness : computeBits 58 ≤ 6 ∧ 58 ≤ 2 ^ computeBits 58 :=
  ⟨(bit_width_correct.2.2.2.2.2.2.2.2 58).2.2 6 (by decide) (by decide),
   (bit_width_correct.2.2.2.2.2.2.2.2 58).2.1⟩

/-! ## `Generate` (Claim C7) -/

theorem generateAux_complete (base : List Nat) (cand : Nat → Nat) :
    ∀ (fuel j need : Nat), need ≤ countAccepted cand base.length fuel j →
    ∃ s, generateAux base cand fuel j need = some s ∧ s.length = need ∧
      ∀ c ∈ s, c ∈ base := by
  intro fuel
  induction fuel with
  | zero =>
    intro j need h
    simp only [countAccepted, Nat.le_zero] at h
    subst h
    exact ⟨[], rfl, rfl, by simp⟩
  | succ fuel ih =>
    intro j need h
    match need with
    | 0 => exact ⟨[], rfl, rfl, by simp⟩
    | need + 1 =>
      by_cases hc : cand j < base.length
      · simp only [countAccepted, if_pos hc] at h
        obtain ⟨s, hs, hl, hm⟩ := ih (j + 1) need (by omega)
        refine ⟨base.get ⟨cand j, hc⟩ :: s, ?_, by simp [hl], ?_⟩
        · rw [generateAux, dif_pos hc, hs]
        · intro c hcm
          rcases List.mem_cons.mp hcm with hcm | hcm
          · rw [hcm]
            exact List.get_mem base _ _
          · exact hm c hcm
      · simp only [countAccepted, if_neg hc] at h
        obtain ⟨s, hs, hl, hm⟩ := ih (j + 1) (need + 1) (by omega)
        refine ⟨s, ?_, hl, hm⟩
        rw [generateAux, dif_neg hc]
        exact hs

/-- Claim C7 (confirmed): whenever the random source supplies at least `L`
accepted candidate indices within the modelled extraction budget (which a
real random source does with probability 1, acceptance chance being at
least 1/2 per candidate), `Generate` returns a string of exactly `L`
characters, each of which is a character of the base alphabet, and no
error: the only outcomes are a full-length string or more sampling. -/
theorem generate_length_and_alphabet (base : List Nat) (stream : Nat → Nat)
    (L fuel : Nat)
    (h : L ≤ countAccepted
      (candOf stream (computeBits base.length) (63 / computeBits base.length))
      base.length fuel 0) :
    ∃ s, generate base stream L fuel = some s ∧ s.length = L ∧
      ∀ c ∈ s, c ∈ base := by
  unfold generate
  exact generateAux_complete base _ fuel 0 L h

/-- Claim C7, witness: a three-symbol base `123` with a constant-zero
source accepts every candidate; a string of length 2 is produced. -/
theorem generate_witness :
    ∃ s, generate [49, 50, 51] (fun _ => 0) 2 5 = some s ∧ s.length = 2 ∧
      ∀ c ∈ s, c ∈ [49, 50, 51] :=
  generate_length_and_alphabet [49, 50, 51] (fun _ => 0) 2 5 (by decide)

/-! ## `Reap` (Claim C4) -/

theorem reapAux_shift (ttl now : Int) (delOk : Object → Bool) :
    ∀ (objs : List Object) (n : Nat) (ds : List Object),
    reapAux ttl now delOk objs n ds =
      ⟨n + (reapAux ttl now delOk objs 0 []).count,
       ds.reverse ++ (reapAux ttl now delOk objs 0 []).deleted,
       (reapAux ttl now delOk objs 0 []).failed⟩ := by
  intro objs
  induction objs with
  | nil => intro n ds; simp [reapAux]
  | cons o rest ih =>
    intro n ds
    by_cases he : o.lastModified + ttl < now
    · by_cases hd : delOk o
      · rw [reapAux, if_pos he, if_pos hd, ih (n + 1) (o :: ds),
          reapAux, if_pos he, if_pos hd, ih 1 [o]]
        simp [List.append_assoc]
        omega
      · rw [reapAux, if_pos he, if_neg hd, reapAux, if_pos he, if_neg hd]
        simp
    · rw [reapAux, if_neg he, ih n ds, reapAux, if_neg he]

theorem reapGo_cons (ttl now : Int) (delOk : Object → Bool) (o : Object)
    (rest : List Object) :
    reapGo ttl now delOk (o :: rest) =
      if o.lastModified + ttl < now then
        if delOk o then
          ⟨1 + (reapGo ttl now delOk rest).count,
           o :: (reapGo ttl now delOk rest).deleted,
           (reapGo ttl now delOk rest).failed⟩
        else ⟨0, [], some o⟩
      else reapGo ttl now delOk rest := by
  unfold reapGo
  by_cases he : o.lastModified + ttl < now
  · by_cases hd : delOk o
    · rw [reapAux, if_pos he, if_pos hd, if_pos he, if_pos hd,
        reapAux_shift ttl now delOk rest 1 [o]]
      simp
    · rw [reapAux, if_pos he, if_neg hd, if_pos he, if_neg hd]
      rfl
  · rw [reapAux, if_neg he, if_neg he]

/-- Claim C4 (confirmed): over the listing returned by `List`, `Reap`
deletes exactly the objects whose `last_modified + TTL` lies strictly
before now and leaves every other object untouched, returning the count of
successful deletions; when a `Delete` fails it stops at that object,
having deleted exactly the expired objects of the preceding prefix, and
returns the partial count (equal to the number already deleted, which stay
deleted). -/
theorem reap_correct (ttl now : Int) (delOk : Object → Bool)
    (objs : List Object) :
    (reapGo ttl now delOk objs).count = (reapGo ttl now delOk objs).deleted.length ∧
    ((reapGo ttl now delOk objs).failed = none →
      (reapGo ttl now delOk objs).deleted =
        objs.filter (fun o => decide (o.lastModified + ttl < now)) ∧
      ∀ o ∈ objs, o.lastModified + ttl < now → delOk o = true) ∧
    (∀ f, (reapGo ttl now delOk objs).failed = some f →
      f.lastModified + ttl < now ∧ delOk f = false ∧
      ∃ pre post, objs = pre ++ f :: post ∧
        (reapGo ttl now delOk objs).deleted =
          pre.filter (fun o => decide (o.lastModified + ttl < now)) ∧
        ∀ o ∈ pre, o.lastModified + ttl < now → delOk o = true) := by
  induction objs with
  | nil =>
    refine ⟨rfl, fun _ => ⟨rfl, by simp⟩, fun f hf => ?_⟩
    cases hf
  | cons o rest ih =>
    obtain ⟨ih1, ih2, ih3⟩ := ih
    rw [reapGo_cons]
    by_cases he : o.lastModified + ttl < now
    · by_cases hd : delOk o
      · rw [if_pos he, if_pos hd]
        refine ⟨by simp [ih1]; omega, fun hf => ?_, fun f hf => ?_⟩
        · obtain ⟨hdel, hall⟩ := ih2 hf
          refine ⟨?_, ?_⟩
          · rw [List.filter_cons, if_pos (by simpa using he), hdel]
          · intro x hx hxe
            rcases List.mem_cons.mp hx with hx | hx
            · rw [hx]; exact hd
            · exact hall x hx hxe
        · obtain ⟨hfe, hfd, pre, post, hsplit, hdel, hall⟩ := ih3 f hf
          refine ⟨hfe, hfd, o :: pre, post, by rw [hsplit, List.cons_append], ?_, ?_⟩
          · rw [List.filter_cons, if_pos (by simpa using he), hdel]
          · intro x hx hxe
            rcases List.mem_cons.mp hx with hx | hx
            · rw [hx]; exact hd
            · exact hall x hx hxe
      · rw [if_pos he, if_neg hd]
        refine ⟨rfl, fun hf => ?_, fun f hf => ?_⟩
        · cases hf
        · have hfo : f = o := (Option.some_inj.mp hf).symm
          subst hfo
          refine ⟨he, by simpa using hd, [], rest, rfl, rfl, by simp⟩
    · rw [if_neg he]
      refine ⟨ih1, fun hf => ?_, fun f hf => ?_⟩
      · obtain ⟨hdel, hall⟩ := ih2 hf
        refine ⟨?_, ?_⟩
        · rw [List.filter_cons, if_neg (by simpa using he), hdel]
        · intro x hx hxe
          rcases List.mem_cons.mp hx with hx | hx
          · rw [hx] at hxe; exact absurd hxe he
          · exact hall x hx hxe
      · obtain ⟨hfe, hfd, pre, post, hsplit, hdel, hall⟩ := ih3 f hf
        refine ⟨hfe, hfd, o :: pre, post, by rw [hsplit, List.cons_append], ?_, ?_⟩
        · rw [List.filter_cons, if_neg (by simpa using he), hdel]
        · intro x hx hxe
          rcases List.mem_cons.mp hx with hx | hx
          · rw [hx] at hxe; exact absurd hxe he
          · exact hall x hx hxe

/-- Claim C4, witness: the count/length equation at a listing with one
expired object between two live ones, all deletions succeeding. -/
theorem reap_correct_witness :
    (reapGo 10 100 (fun _ => true)
        [{ key := [1], lastModified := 95 }, { key := [2], lastModified := 80 },
         { key := [3], lastModified := 99 }]).count =
      (reapGo 10 100 (fun _ => true)
        [{ key := [1], lastModified := 95 }, { key := [2], lastModified := 80 },
         { key := [3], lastModified := 99 }]).deleted.length :=
  (reap_correct 10 100 (fun _ => true)
    [{ key := [1], lastModified := 95 }, { key := [2], lastModified := 80 },
     { key := [3], lastModified := 99 }]).1

/-! ## `List` pagination (Claim C5) -/

theorem getLast?_some_of_ne_nil {α : Type} (l : List α) (h : l ≠ []) :
    ∃ a, l.getLast? = some a := by
  cases l with
  | nil => exact absurd rfl h
  | cons a rest => exact ⟨(a :: rest).getLast (by simp), List.getLast?_eq_getLast _ _⟩

theorem pagesObjs_fields (pages : List Page) :
    ∀ o ∈ pagesObjs pages,
      o.name = [] ∧ o.sizeBytes = 0 ∧ o.expirationSeconds = 0 ∧
      o.presignedGetUrl = [] ∧ o.presignedPutUrl = [] ∧
      o.presignedPutHeaders = [] := by
  induction pages with
  | nil => simp [pagesObjs]
  | cons p rest ih =>
    intro o ho
    rcases List.mem_append.mp ho with h | h
    · obtain ⟨c, -, hc⟩ := List.mem_map.mp h
      rw [← hc]
      exact ⟨rfl, rfl, rfl, rfl, rfl, rfl⟩
    · exact ih o h

theorem listAux_spec (M : Int) :
    ∀ (ps : List Page) (last : Page) (acc : List Object),
    (∀ p ∈ ps, p.isTruncated = true) → last.isTruncated = false →
    (∀ p ∈ ps, p.contents ≠ []) →
    ∃ reqs, listAux M (ps ++ [last]) acc =
        some (acc ++ pagesObjs (ps ++ [last]), reqs) ∧
      reqs.length = ps.length ∧
      ∀ i, i < ps.length →
        reqs[i]? = some ⟨M, some (lastKeyD (acc ++ pagesObjs (ps.take (i + 1))))⟩ := by
  intro ps
  induction ps with
  | nil =>
    intro last acc _ hL _
    refine ⟨[], ?_, rfl, fun i hi => absurd hi (by simp)⟩
    rw [List.nil_append, listAux]
    simp [hL, pagesObjs]
  | cons p ps ih =>
    intro last acc hT hL hNE
    have hpt : p.isTruncated = true := hT p (List.mem_cons_self p ps)
    have hpne : pageObjs p ≠ [] := by
      have hc := hNE p (List.mem_cons_self p ps)
      simp only [pageObjs, ne_eq, List.map_eq_nil_iff]
      exact hc
    have hacc2ne : acc ++ pageObjs p ≠ [] := by
      simp only [ne_eq, List.append_eq_nil]
      exact fun hcon => hpne hcon.2
    obtain ⟨z, hz⟩ := getLast?_some_of_ne_nil _ hacc2ne
    obtain ⟨reqs, hrun, hlen, hidx⟩ := ih last (acc ++ pageObjs p)
      (fun q hq => hT q (List.mem_cons_of_mem p hq)) hL
      (fun q hq => hNE q (List.mem_cons_of_mem p hq))
    refine ⟨⟨M, some z.key⟩ :: reqs, ?_, by simp [hlen], ?_⟩
    · rw [List.cons_append, listAux]
      simp only [hpt, if_true, hz, hrun]
      have hassoc : (acc ++ pageObjs p) ++ pagesObjs (ps ++ [last]) =
          acc ++ pagesObjs ((p :: ps) ++ [last]) := by
        simp [pagesObjs, List.append_assoc]
      rw [hassoc]
      rfl
    · intro i hi
      match i with
      | 0 =>
        have h1 : pagesObjs ((p :: ps).take 1) = pageObjs p := by
          simp [pagesObjs]
        simp only [List.getElem?_cons_zero, h1, Option.some_inj]
        have : lastKeyD (acc ++ pageObjs p) = z.key := by
          simp [lastKeyD, hz]
        rw [this]
      | i + 1 =>
        have hstep := hidx i (by simpa using hi)
        simp only [List.getElem?_cons_succ]
        rw [hstep]
        have : (acc ++ pageObjs p) ++ pagesObjs (ps.take (i + 1)) =
            acc ++ pagesObjs ((p :: ps).take (i + 1 + 1)) := by
          simp [List.take_succ_cons, pagesObjs, List.append_assoc]
        rw [this]

/-- Claim C5 (confirmed): over any response sequence of truncated non-empty
pages followed by one untruncated page, `List` returns the concatenation of
all pages' objects; every request carries the configured max-keys value,
the first request has no cursor, and request `i+1` carries as `StartAfter`
the key of the last object accumulated through page `i`; the loop stops at
the untruncated page; for the empty bucket (one untruncated empty page) the
result is the empty sequence with no error; and every returned object is
populated only with key and last-modified. -/
theorem list_pagination_correct (M : Int) (ps : List Page) (last : Page)
    (hT : ∀ p ∈ ps, p.isTruncated = true) (hL : last.isTruncated = false)
    (hNE : ∀ p ∈ ps, p.contents ≠ []) :
    ∃ reqs, listGo M (ps ++ [last]) = some (pagesObjs (ps ++ [last]), reqs) ∧
      reqs.length = ps.length + 1 ∧
      reqs[0]? = some ⟨M, none⟩ ∧
      (∀ i, i < ps.length →
        reqs[i + 1]? = some ⟨M, some (lastKeyD (pagesObjs (ps.take (i + 1))))⟩) ∧
      ∀ o ∈ pagesObjs (ps ++ [last]),
        o.name = [] ∧ o.sizeBytes = 0 ∧ o.expirationSeconds = 0 ∧
        o.presignedGetUrl = [] ∧ o.presignedPutUrl = [] ∧
        o.presignedPutHeaders = [] := by
  obtain ⟨reqs, hrun, hlen, hidx⟩ := listAux_spec M ps last [] hT hL hNE
  refine ⟨⟨M, none⟩ :: reqs, ?_, by simp [hlen], by simp, ?_, pagesObjs_fields _⟩
  · rw [listGo, hrun]
    simp
  · intro i hi
    simpa using hidx i hi

/-- Claim C5, witness: the empty bucket — a single untruncated empty page
yields the empty object sequence (and no error) from one cursor-less
request. -/
theorem list_pagination_witness :
    ∃ reqs, listGo 1000 ([] ++ [⟨[], false⟩]) =
        some (pagesObjs ([] ++ [⟨[], false⟩]), reqs) ∧
      reqs.length = 0 + 1 ∧
      reqs[0]? = some ⟨1000, none⟩ ∧
      (∀ i, i < ([] : List Page).length →
        reqs[i + 1]? =
          some ⟨1000, some (lastKeyD (pagesObjs (([] : List Page).take (i + 1))))⟩) ∧
      ∀ o ∈ pagesObjs ([] ++ [⟨[], false⟩]),
        o.name = [] ∧ o.sizeBytes = 0 ∧ o.expirationSeconds = 0 ∧
        o.presignedGetUrl = [] ∧ o.presignedPutUrl = [] ∧
        o.presignedPutHeaders = [] :=
  list_pagination_correct 1000 [] ⟨[], false⟩ (by simp) rfl (by simp)

end Wormhol
